import Mathlib

/-!
# Verification of the `pytimetk` anomaly-detection core and expanding augmenter

Shallow embedding, over `ℚ`, of the functions of
`src/pytimetk/core/anomalize.py` and
`src/pytimetk/feature_engineering/expanding.py` that the verified claims
concern.  Machine floats of the Python implementation are modelled as exact
rationals; `numpy`/`pandas` sorting of numeric values is modelled by
`List.insertionSort (· ≤ ·)`.

The seasonal-decomposition backend that `anomalize` delegates to lives in an
external library whose code is not part of this repository; it is modelled
from the specification where a concrete decomposition is needed (see
`classicalTrend` / `classicalSeasonal` below).
-/

namespace PyTimeTk

/-- Sort a list of rationals into non-decreasing order (models `numpy`'s
numeric sort used by `np.percentile` and `np.median`/pandas `median`). -/
def sortQ (xs : List ℚ) : List ℚ := List.insertionSort (· ≤ ·) xs

/-- Python's `abs` on a rational. -/
def absQ (q : ℚ) : ℚ := if q < 0 then -q else q

theorem absQ_eq_abs (q : ℚ) : absQ q = |q| := by
  rcases lt_or_le q 0 with h | h
  · rw [absQ, if_pos h, abs_of_neg h]
  · rw [absQ, if_neg (not_lt.mpr h), abs_of_nonneg h]

/-- `⌊q⌋` as a natural number, for `q ≥ 0` (the index `int(pos)` used by the
percentile interpolation; its argument is always non-negative there). -/
def ratFloorNat (q : ℚ) : ℕ := (q.num / q.den).toNat

theorem ratFloorNat_cast (q : ℚ) (h : 0 ≤ q) : (ratFloorNat q : ℤ) = ⌊q⌋ := by
  rw [ratFloorNat, ← Rat.floor_def, Int.toNat_of_nonneg (Int.floor_nonneg.mpr h)]

/-- `np.percentile(a, p)` with the default linear-interpolation method:
the value at fractional position `p/100 * (n-1)` of the sorted data,
linearly interpolated between the two neighbouring order statistics.
On an empty list (`numpy` raises) we return `0`; all claims assume a
non-empty input. -/
def npPercentile (xs : List ℚ) (p : ℚ) : ℚ :=
  let s := sortQ xs
  let n := s.length
  if n = 0 then 0 else
    let pos : ℚ := p / 100 * ((n : ℚ) - 1)
    let i : ℕ := ratFloorNat pos
    let lo := s.getD i 0
    let hi := s.getD (i + 1) lo
    lo + (pos - (i : ℚ)) * (hi - lo)

/-- One row of the frame returned by `_iqr`
(`anomalize.py`, line 614): columns `outlier_reported`, `direction`,
`score`, `remainder_l1`, `remainder_l2`. -/
structure IqrRow where
  outlier_reported : String
  direction : ℤ
  score : ℚ
  remainder_l1 : ℚ
  remainder_l2 : ℚ
deriving DecidableEq, Repr, Inhabited

/-- The two fence values `limits` computed by `_iqr`
(`anomalize.py`, lines 592-594):
`q1, q3 = np.percentile(data[target], [25, 75])`,
`limits = [-1*(q1 + (0.15/alpha)*iq_range), q3 + (0.15/alpha)*iq_range]`. -/
def iqrLimits (xs : List ℚ) (alpha : ℚ) : ℚ × ℚ :=
  let q1 := npPercentile xs 25
  let q3 := npPercentile xs 75
  let iq_range := q3 - q1
  (-1 * (q1 + (3/20) / alpha * iq_range), q3 + (3/20) / alpha * iq_range)

/-- `_iqr(data, target, alpha, max_anoms)` (`anomalize.py`, lines 568-614),
applied to the `target` column `xs`.  `centerline = sum(limits)/2`;
`score = abs(value - centerline)`;
`outlier_reported = np.where(v > limits[1], "Yes", np.where(v < limits[0], "Yes", "No"))`;
`direction = np.where(v > limits[1], 1, np.where(v < limits[0], -1, 0))`;
the two limits are broadcast to every row.  The `maxAnoms` argument is
accepted, exactly as in the source, without being read. -/
def iqr (xs : List ℚ) (alpha maxAnoms : ℚ) : List IqrRow :=
  let limits := iqrLimits xs alpha
  let centerline := (limits.1 + limits.2) / 2
  xs.map fun v =>
    { outlier_reported :=
        if v > limits.2 then "Yes" else if v < limits.1 then "Yes" else "No"
      direction := if v > limits.2 then 1 else if v < limits.1 then -1 else 0
      score := absQ (v - centerline)
      remainder_l1 := limits.1
      remainder_l2 := limits.2 }

theorem iqr_length (xs : List ℚ) (alpha maxAnoms : ℚ) :
    (iqr xs alpha maxAnoms).length = xs.length := by
  simp [iqr]

theorem mem_iqr (xs : List ℚ) (alpha maxAnoms : ℚ) {r : IqrRow}
    (hr : r ∈ iqr xs alpha maxAnoms) :
    ∃ v ∈ xs,
      r = { outlier_reported :=
              if v > (iqrLimits xs alpha).2 then "Yes"
              else if v < (iqrLimits xs alpha).1 then "Yes" else "No"
            direction :=
              if v > (iqrLimits xs alpha).2 then 1
              else if v < (iqrLimits xs alpha).1 then -1 else 0
            score := absQ (v - ((iqrLimits xs alpha).1 + (iqrLimits xs alpha).2) / 2)
            remainder_l1 := (iqrLimits xs alpha).1
            remainder_l2 := (iqrLimits xs alpha).2 } := by
  simp only [iqr, List.mem_map] at hr
  obtain ⟨v, hv, rfl⟩ := hr
  exact ⟨v, hv, rfl⟩

/-- C1: for a non-empty remainder series and `alpha ∈ (0,1)`, `_iqr` computes
`Q1`/`Q3` as the 25th/75th linear-interpolation percentiles and broadcasts the
lower fence `-(Q1 + (0.15/alpha)·IQR)` (the whole bracket negated) and the
upper fence `Q3 + (0.15/alpha)·IQR` unchanged to every row as `remainder_l1`
and `remainder_l2`. -/
theorem iqr_fences (xs : List ℚ) (alpha maxAnoms : ℚ)
    (hxs : xs ≠ []) (h0 : 0 < alpha) (h1 : alpha < 1) :
    (iqr xs alpha maxAnoms).length = xs.length ∧
    ∀ r ∈ iqr xs alpha maxAnoms,
      r.remainder_l1 =
        -(npPercentile xs 25 +
          (3/20) / alpha * (npPercentile xs 75 - npPercentile xs 25)) ∧
      r.remainder_l2 =
        npPercentile xs 75 +
          (3/20) / alpha * (npPercentile xs 75 - npPercentile xs 25) := by
  refine ⟨iqr_length xs alpha maxAnoms, fun r hr => ?_⟩
  obtain ⟨v, _, rfl⟩ := mem_iqr xs alpha maxAnoms hr
  constructor
  · show (iqrLimits xs alpha).1 = _
    simp only [iqrLimits]
    ring
  · rfl

/-- Witness for `iqr_fences` at `xs = [1, 5, -2, 0]`, `alpha = 1/20`. -/
theorem iqr_fences_witness :
    ([(1 : ℚ), 5, -2, 0] ≠ [] ∧ (0 : ℚ) < 1/20 ∧ (1 : ℚ)/20 < 1) ∧
    ((iqr [(1 : ℚ), 5, -2, 0] (1/20) (1/5)).length = 4 ∧
      ∀ r ∈ iqr [(1 : ℚ), 5, -2, 0] (1/20) (1/5),
        r.remainder_l1 =
          -(npPercentile [(1 : ℚ), 5, -2, 0] 25 +
            (3/20) / (1/20) *
              (npPercentile [(1 : ℚ), 5, -2, 0] 75 -
                npPercentile [(1 : ℚ), 5, -2, 0] 25)) ∧
        r.remainder_l2 =
          npPercentile [(1 : ℚ), 5, -2, 0] 75 +
            (3/20) / (1/20) *
              (npPercentile [(1 : ℚ), 5, -2, 0] 75 -
                npPercentile [(1 : ℚ), 5, -2, 0] 25)) := by
  refine ⟨⟨by decide, by norm_num, by norm_num⟩, ?_⟩
  exact iqr_fences [(1 : ℚ), 5, -2, 0] (1/20) (1/5)
    (by decide) (by norm_num) (by norm_num)

/-- The `i`-th row of `_iqr`'s output frame. -/
def iqrRowAt (xs : List ℚ) (alpha maxAnoms : ℚ) (i : ℕ) : IqrRow :=
  (iqr xs alpha maxAnoms).getD i default

theorem iqrRowAt_eq (xs : List ℚ) (alpha maxAnoms : ℚ) (i : ℕ)
    (hi : i < xs.length) :
    iqrRowAt xs alpha maxAnoms i =
      { outlier_reported :=
          if xs.getD i 0 > (iqrLimits xs alpha).2 then "Yes"
          else if xs.getD i 0 < (iqrLimits xs alpha).1 then "Yes" else "No"
        direction :=
          if xs.getD i 0 > (iqrLimits xs alpha).2 then 1
          else if xs.getD i 0 < (iqrLimits xs alpha).1 then -1 else 0
        score := absQ (xs.getD i 0 -
          ((iqrLimits xs alpha).1 + (iqrLimits xs alpha).2) / 2)
        remainder_l1 := (iqrLimits xs alpha).1
        remainder_l2 := (iqrLimits xs alpha).2 } := by
  have hlen : i < (iqr xs alpha maxAnoms).length := by
    rw [iqr_length]
    exact hi
  rw [iqrRowAt, List.getD_eq_getElem _ _ hlen, List.getD_eq_getElem xs 0 hi]
  simp only [iqr]
  rw [List.getElem_map]

/-- C2: row `i` of `_iqr`'s output, classified against row `i` of its input.
With `centerline = (lower + upper)/2`: the score is the absolute distance of
the remainder value from the centerline; the flag is `"Yes"` exactly when
the value lies strictly outside the fences and `"No"` exactly when
`remainder_l1 ≤ v ≤ remainder_l2`; the direction is `+1` exactly above the
upper fence, `-1` exactly below the lower fence (and not above the upper
one), and `0` exactly inside the fences. -/
theorem iqr_classification (xs : List ℚ) (alpha maxAnoms : ℚ) (i : ℕ)
    (hi : i < xs.length) :
    ((iqrRowAt xs alpha maxAnoms i).score =
      |xs.getD i 0 - ((iqrRowAt xs alpha maxAnoms i).remainder_l1 +
        (iqrRowAt xs alpha maxAnoms i).remainder_l2) / 2|) ∧
    ((iqrRowAt xs alpha maxAnoms i).outlier_reported = "Yes" ↔
      (xs.getD i 0 > (iqrRowAt xs alpha maxAnoms i).remainder_l2 ∨
        xs.getD i 0 < (iqrRowAt xs alpha maxAnoms i).remainder_l1)) ∧
    ((iqrRowAt xs alpha maxAnoms i).outlier_reported = "No" ↔
      ((iqrRowAt xs alpha maxAnoms i).remainder_l1 ≤ xs.getD i 0 ∧
        xs.getD i 0 ≤ (iqrRowAt xs alpha maxAnoms i).remainder_l2)) ∧
    ((iqrRowAt xs alpha maxAnoms i).direction = 1 ↔
      xs.getD i 0 > (iqrRowAt xs alpha maxAnoms i).remainder_l2) ∧
    ((iqrRowAt xs alpha maxAnoms i).direction = -1 ↔
      (xs.getD i 0 < (iqrRowAt xs alpha maxAnoms i).remainder_l1 ∧
        xs.getD i 0 ≤ (iqrRowAt xs alpha maxAnoms i).remainder_l2)) ∧
    ((iqrRowAt xs alpha maxAnoms i).direction = 0 ↔
      ((iqrRowAt xs alpha maxAnoms i).remainder_l1 ≤ xs.getD i 0 ∧
        xs.getD i 0 ≤ (iqrRowAt xs alpha maxAnoms i).remainder_l2)) := by
  rw [iqrRowAt_eq xs alpha maxAnoms i hi]
  set v := xs.getD i 0 with hv
  set L1 := (iqrLimits xs alpha).1 with hL1
  set L2 := (iqrLimits xs alpha).2 with hL2
  refine ⟨absQ_eq_abs _, ?_, ?_, ?_, ?_, ?_⟩ <;>
      by_cases h2 : v > L2 <;> by_cases h3 : v < L1 <;>
      simp only [h2, h3, if_true, if_false, ite_true, ite_false] <;>
      simp_all [not_lt] <;>
      constructor <;> intro h <;> first | omega | (exfalso; omega) | tauto

/-- Witness for `iqr_classification` at `xs = [0, 0, 0, 9]`, `alpha = 1/2`,
row `3` (the flagged outlier). -/
theorem iqr_classification_witness :
    (3 < [(0 : ℚ), 0, 0, 9].length) ∧
    ((iqrRowAt [(0 : ℚ), 0, 0, 9] (1/2) (1/5) 3).score =
      |[(0 : ℚ), 0, 0, 9].getD 3 0 -
        ((iqrRowAt [(0 : ℚ), 0, 0, 9] (1/2) (1/5) 3).remainder_l1 +
          (iqrRowAt [(0 : ℚ), 0, 0, 9] (1/2) (1/5) 3).remainder_l2) / 2|) ∧
    ((iqrRowAt [(0 : ℚ), 0, 0, 9] (1/2) (1/5) 3).direction = 1 ↔
      [(0 : ℚ), 0, 0, 9].getD 3 0 >
        (iqrRowAt [(0 : ℚ), 0, 0, 9] (1/2) (1/5) 3).remainder_l2) := by
  have h := iqr_classification [(0 : ℚ), 0, 0, 9] (1/2) (1/5) 3 (by decide)
  exact ⟨by decide, h.1, h.2.2.2.1⟩

/-- C9: `_iqr` never reads its `max_anoms` argument, so its whole output —
flag, direction, score and both fences on every row — is identical across any
two values of the advisory anomaly-fraction bound. -/
theorem iqr_ignores_max_anoms (xs : List ℚ) (alpha m₁ m₂ : ℚ) :
    iqr xs alpha m₁ = iqr xs alpha m₂ := rfl


/-- `np.median` / pandas `'median'`: the middle order statistic, or the mean
of the two middle order statistics for an even count (`0` on an empty list,
which the grouping below never produces). -/
def pdMedian (xs : List ℚ) : ℚ :=
  let s := sortQ xs
  let n := s.length
  if n = 0 then 0
  else if n % 2 = 1 then s.getD (n / 2) 0
  else (s.getD (n / 2 - 1) 0 + s.getD (n / 2) 0) / 2

/-- `repeat_sequence(seq, length_out)` (`anomalize.py`, lines 498-500):
`quotient, remainder = divmod(length_out, len(seq))`;
`seq * quotient + seq[:remainder]`. -/
def repeat_sequence (seq : List ℕ) (length_out : ℕ) : List ℕ :=
  let quotient := length_out / seq.length
  let remainder := length_out % seq.length
  (List.replicate quotient seq).flatten ++ seq.take remainder

/-- The `median_index` label column (`anomalize.py`, line 504):
`sorted(repeat_sequence(list(range(median_span)), len(seasadj)))`. -/
def medianIndex (median_span n : ℕ) : List ℕ :=
  List.insertionSort (· ≤ ·) (repeat_sequence (List.range median_span) n)

/-- `df.groupby('median_index')['seasadj'].transform('median')`
(`anomalize.py`, line 506): every position receives the median of all
`seasadj` values carrying the same label as its own. -/
def trendFromLabels (seasadj : List ℚ) (labels : List ℕ) : List ℚ :=
  (seasadj.zip labels).map fun p =>
    pdMedian ((seasadj.zip labels).filterMap fun q =>
      if q.2 = p.2 then some q.1 else none)

/-- The median trend of `_twitter_decompose` (`anomalize.py`, lines 494-508)
as a function of the seasonally-adjusted series and `median_span`. -/
def twitterTrend (seasadj : List ℚ) (median_span : ℕ) : List ℚ :=
  trendFromLabels seasadj (medianIndex median_span seasadj.length)

/-- The label assignment described by the specification for the twitter
trend: round-robin, index `i` belongs to sub-sequence `i mod median_span`. -/
def interleavedLabels (median_span n : ℕ) : List ℕ :=
  (List.range n).map (· % median_span)

/-- Contiguous-block labels: label `j < m` occupies a run of `n/m` positions
(`n/m + 1` for the first `n % m` labels), runs in increasing label order. -/
def blockLabels (m n : ℕ) : List ℕ :=
  ((List.range m).map fun j =>
    List.replicate (n / m + if j < n % m then 1 else 0) j).flatten

theorem count_range_eq (m j : ℕ) :
    (List.range m).count j = if j < m then 1 else 0 := by
  by_cases h : j < m
  · rw [if_pos h]
    exact List.count_eq_one_of_mem (List.nodup_range m) (List.mem_range.mpr h)
  · rw [if_neg h]
    exact List.count_eq_zero_of_not_mem (fun hc => h (List.mem_range.mp hc))

theorem count_repeat_sequence_range (m n j : ℕ) (hm : 0 < m) :
    (repeat_sequence (List.range m) n).count j =
      if j < m then n / m + (if j < n % m then 1 else 0) else 0 := by
  have hlen : (List.range m).length = m := List.length_range m
  rw [repeat_sequence]
  simp only [hlen]
  rw [List.count_append, List.count_flatten, List.map_replicate, List.sum_replicate,
    List.take_range, count_range_eq]
  have hmod : n % m ⊓ m = n % m := min_eq_left (le_of_lt (Nat.mod_lt n hm))
  rw [hmod, count_range_eq]
  by_cases h : j < m
  · have h2 : (if j < n % m then 1 else 0 : ℕ) = (List.range (n % m)).count j := by
      rw [count_range_eq]
    rw [if_pos h, if_pos h, smul_eq_mul, mul_one]
  · have hj : ¬ j < n % m := fun hc => h (lt_of_lt_of_le hc (le_of_lt (Nat.mod_lt n hm)))
    rw [if_neg h, if_neg h, if_neg hj, smul_eq_mul, mul_zero]

theorem sum_map_range_ite (f : ℕ → ℕ) (j : ℕ) :
    ∀ m, ((List.range m).map fun i => if i = j then f i else 0).sum =
      if j < m then f j else 0 := by
  intro m
  induction m with
  | zero => simp
  | succ m ih =>
    rw [List.range_succ, List.map_append, List.sum_append, ih]
    by_cases h1 : j < m
    · have h2 : m ≠ j := by omega
      simp [h1, h2, Nat.lt_succ_of_lt h1]
    · by_cases h3 : m = j
      · simp [h1, h3, Nat.lt_succ_self]
      · have h4 : ¬ j < m + 1 := by omega
        simp [h1, h3, h4]

theorem count_blockLabels (m n j : ℕ) :
    (blockLabels m n).count j =
      if j < m then n / m + (if j < n % m then 1 else 0) else 0 := by
  rw [blockLabels, List.count_flatten, List.map_map]
  have h : (List.count j ∘ fun i => List.replicate (n / m + if i < n % m then 1 else 0) i) =
      fun i => if i = j then n / m + (if i < n % m then 1 else 0) else 0 := by
    funext i
    simp only [Function.comp_apply, List.count_replicate]
    by_cases h : i = j <;> simp [h]
  rw [h, sum_map_range_ite (fun i => n / m + if i < n % m then 1 else 0) j]

theorem medianIndex_perm_blockLabels (m n : ℕ) (hm : 0 < m) :
    (medianIndex m n).Perm (blockLabels m n) := by
  refine List.perm_iff_count.mpr fun j => ?_
  have h1 : (medianIndex m n).count j = (repeat_sequence (List.range m) n).count j :=
    (List.perm_insertionSort (· ≤ ·) (repeat_sequence (List.range m) n)).count_eq j
  rw [h1, count_repeat_sequence_range m n j hm, count_blockLabels]

theorem pairwise_le_replicate (c j : ℕ) :
    List.Pairwise (· ≤ ·) (List.replicate c j) := by
  induction c with
  | zero => exact List.Pairwise.nil
  | succ c ih =>
    rw [List.replicate_succ]
    exact List.Pairwise.cons
      (fun y hy => le_of_eq (List.eq_of_mem_replicate hy).symm) ih

theorem sorted_blockLabels (m n : ℕ) :
    List.Sorted (· ≤ ·) (blockLabels m n) := by
  rw [List.Sorted, blockLabels, List.pairwise_flatten]
  constructor
  · intro l hl
    rw [List.mem_map] at hl
    obtain ⟨j, _, rfl⟩ := hl
    exact pairwise_le_replicate _ j
  · rw [List.pairwise_map]
    refine (List.pairwise_lt_range m).imp ?_
    intro j₁ j₂ hj x hx y hy
    rw [List.eq_of_mem_replicate hx, List.eq_of_mem_replicate hy]
    exact le_of_lt hj

theorem medianIndex_eq_blockLabels (m n : ℕ) (hm : 0 < m) :
    medianIndex m n = blockLabels m n :=
  List.eq_of_perm_of_sorted (medianIndex_perm_blockLabels m n hm)
    (List.sorted_insertionSort (· ≤ ·) (repeat_sequence (List.range m) n))
    (sorted_blockLabels m n)

/-- C3 (amended): the twitter-variant trend partitions the seasonally
adjusted series into `median_span` CONTIGUOUS blocks — the sorted label
column gives label `j` a run of `n/median_span` consecutive positions
(`+1` for the first `n mod median_span` labels) — and assigns each position
the median of its block; the assignment is not the round-robin interleaving
`i mod median_span`. -/
theorem twitterTrend_contiguous_blocks (seasadj : List ℚ) (m : ℕ) (hm : 0 < m) :
    twitterTrend seasadj m =
      trendFromLabels seasadj (blockLabels m seasadj.length) := by
  rw [twitterTrend, medianIndex_eq_blockLabels m seasadj.length hm]

/-- Witness for `twitterTrend_contiguous_blocks` at
`seasadj = [0, 0, 10, 10]`, `median_span = 2`. -/
theorem twitterTrend_contiguous_blocks_witness :
    0 < 2 ∧
      twitterTrend [(0 : ℚ), 0, 10, 10] 2 =
        trendFromLabels [(0 : ℚ), 0, 10, 10]
          (blockLabels 2 ([(0 : ℚ), 0, 10, 10]).length) :=
  ⟨Nat.zero_lt_two, twitterTrend_contiguous_blocks [(0 : ℚ), 0, 10, 10] 2 Nat.zero_lt_two⟩

/-- C3, counterexample: on the seasonally-adjusted series `[0, 0, 10, 10]`
with `median_span = 2` the code's trend (`[0, 0, 10, 10]`, contiguous blocks
`{0,0}` and `{10,10}`) differs from the round-robin interleaved trend the
claim describes (`[5, 5, 5, 5]`, sub-sequences `{0,10}` twice). -/
theorem twitterTrend_ne_interleaved :
    twitterTrend [(0 : ℚ), 0, 10, 10] 2 ≠
      trendFromLabels [(0 : ℚ), 0, 10, 10] (interleavedLabels 2 4) := by
  with_unfolding_all decide

/-- The spec's error taxonomy for a failing group pipeline.  The repository
defines no error classes of its own; `ConfigurationError` is the
specification's name for a period incompatible with the series length. -/
inductive PyError where
  | configurationError (msg : String)
deriving DecidableEq, Repr

/-- `np.round` on a non-negative rational: round half to even. -/
def npRound (x : ℚ) : ℕ :=
  let f := ratFloorNat x
  let frac := x - (f : ℚ)
  if frac < 1/2 then f
  else if 1/2 < frac then f + 1
  else if f % 2 = 0 then f else f + 1

/-- Modelled from the spec: the weights of the centered moving average of the
classical seasonal decomposition (the implementation delegates this to an
external decomposition library whose code is not in this repository).  For an
even period the window spans `period + 1` points with half weight at the two
ends; for an odd period it is the plain `period`-point average. -/
def maWeights (p : ℕ) : List ℚ :=
  if p % 2 = 0 then
    [1 / (2 * (p : ℚ))] ++ List.replicate (p - 1) (1 / (p : ℚ)) ++ [1 / (2 * (p : ℚ))]
  else List.replicate p (1 / (p : ℚ))

/-- The centered weighted moving average of `xs` at position `i`
(meaningful for positions with a full window on both sides). -/
def maAt (xs : List ℚ) (p i : ℕ) : ℚ :=
  let w := maWeights p
  let h := (w.length - 1) / 2
  (List.range w.length).foldl (fun acc k => acc + w.getD k 0 * xs.getD (i - h + k) 0) 0

/-- Modelled from the spec: the moving-average trend of the classical
decomposition, with edge points that the centered window cannot reach filled
by linear extrapolation from the nearest valid window (the line through the
two valid trend points closest to each edge; constant if only one window
fits).  Meaningful for `period < xs.length`. -/
def classicalTrend (xs : List ℚ) (p : ℕ) : List ℚ :=
  let n := xs.length
  let w := maWeights p
  let h := (w.length - 1) / 2
  let a := h
  let b := n - 1 - h
  let ta := maAt xs p a
  let tb := maAt xs p b
  if a < b then
    let slopeL := maAt xs p (a + 1) - ta
    let slopeR := tb - maAt xs p (b - 1)
    (List.range n).map fun i =>
      if i < a then ta - ((a - i : ℕ) : ℚ) * slopeL
      else if b < i then tb + ((i - b : ℕ) : ℚ) * slopeR
      else maAt xs p i
  else (List.range n).map fun _ => ta

/-- Modelled from the spec: the period-averaged seasonal component of the
classical decomposition — the de-meaned per-phase averages of the detrended
series, tiled over the whole length. -/
def classicalSeasonal (xs : List ℚ) (p : ℕ) : List ℚ :=
  let n := xs.length
  let t := classicalTrend xs p
  let detr := (List.range n).map fun i => xs.getD i 0 - t.getD i 0
  let phaseMean := fun j =>
    let vals := (List.range n).filterMap fun i =>
      if i % p = j then some (detr.getD i 0) else none
    vals.sum / (vals.length : ℚ)
  let grand := ((List.range p).map phaseMean).sum / (p : ℚ)
  (List.range n).map fun i => phaseMean (i % p) - grand

/-- One row of the decomposition frame
(`anomalize.py`, lines 511-513 and 558-560):
columns `observed`, `seasonal`, `seasadj`, `trend`, `remainder`. -/
structure DecompRow where
  observed : ℚ
  seasonal : ℚ
  seasadj : ℚ
  trend : ℚ
  remainder : ℚ
deriving DecidableEq, Repr, Inhabited

/-- Assembly shared by both decomposition variants: given the observed series
and the seasonal and trend columns, build the rows with
`seasadj = observed - seasonal` and `remainder = seasadj - trend`
(`anomalize.py`, lines 489-513 and 549-560). -/
def mkDecompRows (xs seasonal trend : List ℚ) : List DecompRow :=
  (List.range xs.length).map fun i =>
    let o := xs.getD i 0
    let s := seasonal.getD i 0
    let t := trend.getD i 0
    { observed := o, seasonal := s, seasadj := o - s, trend := t,
      remainder := o - s - t }

/-- `_twitter_decompose` (`anomalize.py`, lines 466-520): seasonal component
from the classical decomposition, then the median trend of `twitterTrend`
computed on `seasadj = series - seasonal`, and `remainder = seasadj - trend`. -/
def _twitter_decompose (xs : List ℚ) (period median_span : ℕ) : List DecompRow :=
  let seasonal := classicalSeasonal xs period
  let seasadj := (List.range xs.length).map fun i => xs.getD i 0 - seasonal.getD i 0
  mkDecompRows xs seasonal (twitterTrend seasadj median_span)

/-- `_seasonal_decompose` (`anomalize.py`, lines 523-566): seasonal and
moving-average trend from the classical decomposition,
`seasadj = series - seasonal`, `remainder = seasadj - trend`. -/
def _seasonal_decompose (xs : List ℚ) (period : ℕ) : List DecompRow :=
  mkDecompRows xs (classicalSeasonal xs period) (classicalTrend xs period)

/-- One row of the frame returned by `_anomalize`
(`anomalize.py`, lines 353-463), timestamp column aside. -/
structure AnomRow where
  observed : ℚ
  seasonal : ℚ
  seasadj : ℚ
  trend : ℚ
  remainder : ℚ
  anomaly : String
  anomaly_score : ℚ
  anomaly_direction : ℤ
  recomposed_l1 : ℚ
  recomposed_l2 : ℚ
  observed_clean : ℚ
deriving DecidableEq, Repr, Inhabited

/-- Merge of one decomposition row with its `_iqr` row (`anomalize.py`,
lines 430-454): STEP 3 attaches the classification columns and the
recomposed bounds `seasonal + trend + remainder_l1/l2`; STEP 4 cleans with
the `min_max` policy
`np.where(direction == -1, clean_alpha*recomposed_l1,
np.where(direction == 1, clean_alpha*recomposed_l2, observed))`. -/
def mkAnomRow (clean_alpha : ℚ) (d : DecompRow) (o : IqrRow) : AnomRow :=
  let l1 := d.seasonal + d.trend + o.remainder_l1
  let l2 := d.seasonal + d.trend + o.remainder_l2
  { observed := d.observed, seasonal := d.seasonal, seasadj := d.seasadj,
    trend := d.trend, remainder := d.remainder,
    anomaly := o.outlier_reported, anomaly_score := o.score,
    anomaly_direction := o.direction,
    recomposed_l1 := l1, recomposed_l2 := l2,
    observed_clean :=
      if o.direction = -1 then clean_alpha * l1
      else if o.direction = 1 then clean_alpha * l2
      else d.observed }

/-- `_anomalize` (`anomalize.py`, lines 353-463) for one group's series, with
`period` and `trend` given (the inference of omitted periods lives outside
this repository's sources) and the `min_max` cleaning policy (the claims
under verification exercise no other policy).  Steps: decompose (`'twitter'`
via `median_span = int(np.round(len(data)/trend))`, anything else via the
classical decomposition), classify the `remainder` column with `_iqr`,
recompose `recomposed_l1/l2 = seasonal + trend + remainder_l1/l2`, and clean
via `np.where(direction == -1, clean_alpha*recomposed_l1,
np.where(direction == 1, clean_alpha*recomposed_l2, observed))`.
Modelled from the spec: a period at least the series length makes the
decomposition fail with the spec's `ConfigurationError` (the check itself
happens in code outside this repository's sources). -/
def _anomalize (xs : List ℚ) (period trendLen : ℕ) (method : String)
    (iqr_alpha clean_alpha max_anomalies : ℚ) : Except PyError (List AnomRow) :=
  if xs.length ≤ period then
    .error (.configurationError "period must be smaller than the series length")
  else
    let drows :=
      if method = "twitter" then
        _twitter_decompose xs period (npRound ((xs.length : ℚ) / (trendLen : ℚ)))
      else _seasonal_decompose xs period
    let out := iqr (drows.map (·.remainder)) iqr_alpha max_anomalies
    .ok (List.zipWith (mkAnomRow clean_alpha) drows out)

theorem mem_zipWith_elim {α β γ : Type} {f : α → β → γ} :
    ∀ {l₁ : List α} {l₂ : List β} {c : γ}, c ∈ List.zipWith f l₁ l₂ →
      ∃ a ∈ l₁, ∃ b ∈ l₂, c = f a b := by
  intro l₁
  induction l₁ with
  | nil => intro l₂ c h; simp at h
  | cons a l ih =>
    intro l₂ c h
    cases l₂ with
    | nil => simp at h
    | cons b l₂ =>
      rw [List.zipWith_cons_cons] at h
      rcases List.mem_cons.mp h with h | h
      · exact ⟨a, List.mem_cons_self a l, b, List.mem_cons_self b l₂, h⟩
      · obtain ⟨x, hx, y, hy, rfl⟩ := ih h
        exact ⟨x, List.mem_cons_of_mem a hx, y, List.mem_cons_of_mem b hy, rfl⟩

theorem map_zipWith_left {α β γ δ : Type} (f : α → β → γ) (g : γ → δ) (g₀ : α → δ)
    (hfg : ∀ a b, g (f a b) = g₀ a) :
    ∀ (l₁ : List α) (l₂ : List β), l₁.length ≤ l₂.length →
      (List.zipWith f l₁ l₂).map g = l₁.map g₀ := by
  intro l₁
  induction l₁ with
  | nil => intro l₂ _; simp
  | cons a l ih =>
    intro l₂ hlen
    cases l₂ with
    | nil => simp at hlen
    | cons b l₂ =>
      rw [List.zipWith_cons_cons, List.map_cons, List.map_cons, hfg,
        ih l₂ (Nat.le_of_succ_le_succ hlen)]

theorem mem_mkDecompRows {xs s t : List ℚ} {d : DecompRow}
    (h : d ∈ mkDecompRows xs s t) :
    ∃ ov sv tv : ℚ,
      d = { observed := ov, seasonal := sv, seasadj := ov - sv, trend := tv,
            remainder := ov - sv - tv } := by
  simp only [mkDecompRows, List.mem_map] at h
  obtain ⟨i, _, rfl⟩ := h
  exact ⟨_, _, _, rfl⟩

/-- Every row either decomposition variant produces has
`seasadj = observed - seasonal` and `remainder = seasadj - trend`. -/
theorem anomalize_decomp_row_shape (xs : List ℚ) (period trendLen : ℕ)
    (method : String) {d : DecompRow}
    (h : d ∈ (if method = "twitter" then
        _twitter_decompose xs period (npRound ((xs.length : ℚ) / (trendLen : ℚ)))
      else _seasonal_decompose xs period)) :
    ∃ ov sv tv : ℚ,
      d = { observed := ov, seasonal := sv, seasadj := ov - sv, trend := tv,
            remainder := ov - sv - tv } := by
  revert h
  split
  · intro h
    rw [_twitter_decompose] at h
    exact mem_mkDecompRows h
  · intro h
    rw [_seasonal_decompose] at h
    exact mem_mkDecompRows h

/-- C6: every row of a successful `_anomalize` run (either method; the
embedding is the additive model) satisfies the exact decomposition identity
`observed = seasonal + trend + remainder`, with `seasadj = observed -
seasonal` and `remainder = seasadj - trend`. -/
theorem anomalize_additive_identity (xs : List ℚ) (period trendLen : ℕ)
    (method : String) (iqr_alpha clean_alpha max_anomalies : ℚ)
    (rows : List AnomRow)
    (h : _anomalize xs period trendLen method iqr_alpha clean_alpha
        max_anomalies = .ok rows) :
    ∀ r ∈ rows,
      r.observed = r.seasonal + r.trend + r.remainder ∧
      r.seasadj = r.observed - r.seasonal ∧
      r.remainder = r.seasadj - r.trend := by
  intro r hr
  rw [_anomalize] at h
  split at h
  · exact absurd h (by simp)
  · rw [Except.ok.injEq] at h
    subst h
    obtain ⟨d, hd, o, ho, rfl⟩ := mem_zipWith_elim hr
    obtain ⟨ov, sv, tv, rfl⟩ :=
      anomalize_decomp_row_shape xs period trendLen method hd
    refine ⟨?_, ?_, ?_⟩ <;> simp [mkAnomRow] <;> ring

/-- Witness for `anomalize_additive_identity` on a successful concrete run. -/
theorem anomalize_additive_identity_witness :
    (_anomalize [(10 : ℚ), 10, 10, 0] 2 4 "twitter" (1/20) (3/4) (1/5)).toOption.getD []
        ≠ [] ∧
    ∀ r ∈ (_anomalize [(10 : ℚ), 10, 10, 0] 2 4 "twitter" (1/20) (3/4)
        (1/5)).toOption.getD [],
      r.observed = r.seasonal + r.trend + r.remainder ∧
      r.seasadj = r.observed - r.seasonal ∧
      r.remainder = r.seasadj - r.trend := by
  constructor
  · with_unfolding_all decide
  · exact anomalize_additive_identity [(10 : ℚ), 10, 10, 0] 2 4 "twitter"
      (1/20) (3/4) (1/5) _ (by with_unfolding_all rfl)

/-- C4: under the `min_max` cleaning policy, a row with direction `-1` is
cleaned to `clean_alpha * recomposed_l1`, a row with direction `+1` to
`clean_alpha * recomposed_l2`, a row with direction `0` keeps its observed
value; with `clean_alpha = 0` every anomalous row is cleaned to exactly `0`. -/
theorem anomalize_min_max_clean (xs : List ℚ) (period trendLen : ℕ)
    (method : String) (iqr_alpha clean_alpha max_anomalies : ℚ)
    (rows : List AnomRow)
    (h : _anomalize xs period trendLen method iqr_alpha clean_alpha
        max_anomalies = .ok rows) :
    ∀ r ∈ rows,
      (r.anomaly_direction = -1 → r.observed_clean = clean_alpha * r.recomposed_l1) ∧
      (r.anomaly_direction = 1 → r.observed_clean = clean_alpha * r.recomposed_l2) ∧
      (r.anomaly_direction = 0 → r.observed_clean = r.observed) ∧
      (clean_alpha = 0 → r.anomaly_direction ≠ 0 → r.observed_clean = 0) := by
  intro r hr
  rw [_anomalize] at h
  split at h
  · exact absurd h (by simp)
  · rw [Except.ok.injEq] at h
    subst h
    obtain ⟨d, hd, o, ho, rfl⟩ := mem_zipWith_elim hr
    obtain ⟨v, hv, rfl⟩ := mem_iqr _ iqr_alpha max_anomalies ho
    by_cases h2 : v > (iqrLimits ((if method = "twitter" then
          _twitter_decompose xs period (npRound ((xs.length : ℚ) / (trendLen : ℚ)))
        else _seasonal_decompose xs period).map (·.remainder)) iqr_alpha).2 <;>
      by_cases h3 : v < (iqrLimits ((if method = "twitter" then
          _twitter_decompose xs period (npRound ((xs.length : ℚ) / (trendLen : ℚ)))
        else _seasonal_decompose xs period).map (·.remainder)) iqr_alpha).1 <;>
      simp only [mkAnomRow, h2, h3, if_true, if_false, ite_true, ite_false] <;>
      refine ⟨?_, ?_, ?_, ?_⟩ <;>
      simp_all [mkAnomRow] <;>
      first
        | ring
        | (intro h0 h1; exact absurd rfl h1)
        | skip

/-- Witness for `anomalize_min_max_clean` on a run that flags one anomaly. -/
theorem anomalize_min_max_clean_witness :
    (_anomalize [(10 : ℚ), 10, 10, 0] 2 4 "twitter" (1/20) (3/4) (1/5)).toOption.getD []
        ≠ [] ∧
    ∀ r ∈ (_anomalize [(10 : ℚ), 10, 10, 0] 2 4 "twitter" (1/20) (3/4)
        (1/5)).toOption.getD [],
      (r.anomaly_direction = -1 → r.observed_clean = (3/4) * r.recomposed_l1) ∧
      (r.anomaly_direction = 1 → r.observed_clean = (3/4) * r.recomposed_l2) ∧
      (r.anomaly_direction = 0 → r.observed_clean = r.observed) ∧
      ((3/4 : ℚ) = 0 → r.anomaly_direction ≠ 0 → r.observed_clean = 0) := by
  constructor
  · with_unfolding_all decide
  · exact anomalize_min_max_clean [(10 : ℚ), 10, 10, 0] 2 4 "twitter"
      (1/20) (3/4) (1/5) _ (by with_unfolding_all rfl)

/-- The two fences are in the expected order whenever `alpha ≤ 0.3` and the
25th/75th percentiles of the classified series straddle `0`. -/
theorem iqrLimits_ordered (xs : List ℚ) (alpha : ℚ) (h0 : 0 < alpha)
    (h3 : alpha ≤ 3/10) (hq1 : npPercentile xs 25 ≤ 0)
    (hq3 : 0 ≤ npPercentile xs 75) :
    (iqrLimits xs alpha).1 ≤ (iqrLimits xs alpha).2 := by
  simp only [iqrLimits]
  have hk : (1 : ℚ)/2 ≤ 3/20/alpha := by
    rw [le_div_iff₀ h0]
    linarith
  have hiq : 0 ≤ npPercentile xs 75 - npPercentile xs 25 := by linarith
  have hked := mul_le_mul_of_nonneg_right hk hiq
  linarith

/-- C5 (amended): every row of a successful `_anomalize` run satisfies
`recomposed_l1 ≤ recomposed_l2` PROVIDED `iqr_alpha ≤ 0.3` (true of the
default `0.05`) and the 25th/75th percentiles of the remainder column
straddle `0`; without those provisos the fences — and with them the
recomposed bounds of every row — can come out in inverted order. -/
theorem anomalize_recomposed_ordered (xs : List ℚ) (period trendLen : ℕ)
    (method : String) (iqr_alpha clean_alpha max_anomalies : ℚ)
    (rows : List AnomRow)
    (h : _anomalize xs period trendLen method iqr_alpha clean_alpha
        max_anomalies = .ok rows)
    (h0 : 0 < iqr_alpha) (h3 : iqr_alpha ≤ 3/10)
    (hq1 : npPercentile (rows.map (·.remainder)) 25 ≤ 0)
    (hq3 : 0 ≤ npPercentile (rows.map (·.remainder)) 75) :
    ∀ r ∈ rows, r.recomposed_l1 ≤ r.recomposed_l2 := by
  rw [_anomalize] at h
  split at h
  · exact absurd h (by simp)
  · rw [Except.ok.injEq] at h
    have hmap : rows.map (·.remainder) =
        ((if method = "twitter" then
            _twitter_decompose xs period (npRound ((xs.length : ℚ) / (trendLen : ℚ)))
          else _seasonal_decompose xs period).map (·.remainder)) := by
      rw [← h]
      exact map_zipWith_left (mkAnomRow clean_alpha) (·.remainder) (·.remainder)
        (fun d o => rfl) _ _
        (le_of_eq (by rw [iqr_length, List.length_map]))
    rw [hmap] at hq1 hq3
    intro r hr
    rw [← h] at hr
    obtain ⟨d, hd, o, ho, rfl⟩ := mem_zipWith_elim hr
    obtain ⟨v, hv, rfl⟩ := mem_iqr _ iqr_alpha max_anomalies ho
    have hord := iqrLimits_ordered _ iqr_alpha h0 h3 hq1 hq3
    simp only [mkAnomRow]
    linarith

set_option maxHeartbeats 2000000 in
/-- Witness for `anomalize_recomposed_ordered` at the default-like
`iqr_alpha = 0.05` on a concrete run. -/
theorem anomalize_recomposed_ordered_witness :
    (_anomalize [(10 : ℚ), 10, 10, 0] 2 4 "twitter" (1/20) (3/4) (1/5)).toOption.getD []
        ≠ [] ∧
    ∀ r ∈ (_anomalize [(10 : ℚ), 10, 10, 0] 2 4 "twitter" (1/20) (3/4)
        (1/5)).toOption.getD [],
      r.recomposed_l1 ≤ r.recomposed_l2 := by
  constructor
  · with_unfolding_all decide
  · exact anomalize_recomposed_ordered [(10 : ℚ), 10, 10, 0] 2 4 "twitter"
      (1/20) (3/4) (1/5) _ (by with_unfolding_all rfl)
      (by norm_num) (by norm_num)
      (by with_unfolding_all decide) (by with_unfolding_all decide)

/-- C5, counterexample: on the series `[10, 10, 10, 0]` with `period = 2`,
`trend = 4`, the twitter method and `iqr_alpha = 0.9` (inside the spec's
`(0,1)` range), the run succeeds with 4 rows and EVERY row has
`recomposed_l2 < recomposed_l1` — the fence ordering is not preserved for
every configuration. -/
theorem anomalize_recomposed_inverted :
    ((_anomalize [(10 : ℚ), 10, 10, 0] 2 4 "twitter" (9/10) (3/4)
        (1/5)).toOption.getD []).length = 4 ∧
    ((_anomalize [(10 : ℚ), 10, 10, 0] 2 4 "twitter" (9/10) (3/4)
        (1/5)).toOption.getD []).all
      (fun r => decide (r.recomposed_l2 < r.recomposed_l1)) = true := by
  constructor
  · with_unfolding_all decide
  · with_unfolding_all decide

/-- C7: a period at least the series length makes `_anomalize` fail with the
spec's `ConfigurationError` before any decomposition, whatever the method
string (the source dispatches `'twitter'` and everything else to the two
variants, and both reject the period against the length). -/
theorem anomalize_period_ge_length (xs : List ℚ) (period trendLen : ℕ)
    (method : String) (iqr_alpha clean_alpha max_anomalies : ℚ)
    (h : xs.length ≤ period) :
    _anomalize xs period trendLen method iqr_alpha clean_alpha max_anomalies =
      .error (.configurationError
        "period must be smaller than the series length") := by
  rw [_anomalize, if_pos h]

/-- Witness for `anomalize_period_ge_length`, on both method strings. -/
theorem anomalize_period_ge_length_witness :
    ([(1 : ℚ), 2, 3].length ≤ 3) ∧
    _anomalize [(1 : ℚ), 2, 3] 3 2 "twitter" (1/20) (3/4) (1/5) =
      .error (.configurationError
        "period must be smaller than the series length") ∧
    _anomalize [(1 : ℚ), 2, 3] 3 2 "seasonal_decompose" (1/20) (3/4) (1/5) =
      .error (.configurationError
        "period must be smaller than the series length") :=
  ⟨by decide,
    anomalize_period_ge_length [(1 : ℚ), 2, 3] 3 2 "twitter" (1/20) (3/4) (1/5)
      (by decide),
    anomalize_period_ge_length [(1 : ℚ), 2, 3] 3 2 "seasonal_decompose"
      (1/20) (3/4) (1/5) (by decide)⟩

/-- Column-level model of `df[name] = ...`: assigning an existing column
keeps the column order, a new column is appended on the right. -/
def addCol (cols : List String) (name : String) : List String :=
  if name ∈ cols then cols else cols ++ [name]

/-- Columns of the frame both decomposition helpers return
(`anomalize.py`, lines 511-515 and 558-564): after `reset_index` the date
column leads, followed by the five named components. -/
def decompCols (dateCol : String) : List String :=
  [dateCol, "observed", "seasonal", "seasadj", "trend", "remainder"]

/-- Column order of the frame `_anomalize` returns (`anomalize.py`,
lines 428-463): the decomposition frame, the STEP-3/STEP-4 column
assignments in source order, the re-assignment of the existing date column
(line 457), and for `bind_data` the concatenation
`pd.concat([data, result.drop(date_column, axis=1)], axis=1)` (line 461) —
the ORIGINAL frame's columns first, then the result without its date
column. -/
def _anomalizeCols (dateCol : String) (bindData : Bool)
    (dataCols : List String) : List String :=
  let result := decompCols dateCol
  let result := addCol result "anomaly"
  let result := addCol result "anomaly_score"
  let result := addCol result "anomaly_direction"
  let result := addCol result "recomposed_l1"
  let result := addCol result "recomposed_l2"
  let result := addCol result "observed_clean"
  let result := addCol result dateCol
  if bindData then dataCols ++ result.erase dateCol else result

/-- Column order of the `anomalize` entry point (`anomalize.py`,
lines 275-347): for grouped input `reset_index(level=group_names)`
re-attaches the group key columns on the left (`groupCols = []` for the
ungrouped call). -/
def anomalizeCols (groupCols : List String) (dateCol : String)
    (bindData : Bool) (dataCols : List String) : List String :=
  groupCols ++ _anomalizeCols dateCol bindData dataCols

/-- The result columns `_anomalize` creates, in creation order. -/
def resultColNames : List String :=
  ["observed", "seasonal", "seasadj", "trend", "remainder", "anomaly",
   "anomaly_score", "anomaly_direction", "recomposed_l1", "recomposed_l2",
   "observed_clean"]

/-- C8 (amended): the output columns are the group columns, then — without
`bind_data` — the timestamp column followed by the twelve result columns in
the claimed order; with `bind_data` the ORIGINAL input columns come first
(the timestamp column among them at its original position) and the result
columns, minus their duplicate timestamp column, follow them. -/
theorem anomalizeCols_order (groupCols : List String) (dateCol : String)
    (dataCols : List String) (hd : dateCol ∉ resultColNames) :
    anomalizeCols groupCols dateCol false dataCols =
      groupCols ++ dateCol :: resultColNames ∧
    anomalizeCols groupCols dateCol true dataCols =
      groupCols ++ dataCols ++ resultColNames := by
  simp only [resultColNames, List.mem_cons, not_or, List.mem_singleton,
    List.not_mem_nil, not_false_iff, and_true] at hd
  obtain ⟨n1, n2, n3, n4, n5, n6, n7, n8, n9, n10, n11⟩ := hd
  have key : _anomalizeCols dateCol false dataCols =
      dateCol :: resultColNames := by
    simp [_anomalizeCols, decompCols, addCol, resultColNames, List.mem_cons,
      Ne.symm n1, Ne.symm n2, Ne.symm n3, Ne.symm n4, Ne.symm n5,
      Ne.symm n6, Ne.symm n7, Ne.symm n8, Ne.symm n9, Ne.symm n10,
      Ne.symm n11]
  have key2 : _anomalizeCols dateCol true dataCols =
      dataCols ++ resultColNames := by
    have herase : (dateCol :: resultColNames).erase dateCol = resultColNames :=
      List.erase_cons_head dateCol resultColNames
    calc _anomalizeCols dateCol true dataCols
        = dataCols ++ (dateCol :: resultColNames).erase dateCol := by
          simp only [_anomalizeCols] at key ⊢
          rw [if_neg (by simp)] at key
          rw [key]
          simp
      _ = dataCols ++ resultColNames := by rw [herase]
  exact ⟨by rw [anomalizeCols, key], by rw [anomalizeCols, key2, List.append_assoc]⟩

/-- Witness for `anomalizeCols_order` at `dateCol = "date"`,
`groupCols = ["id"]`, `dataCols = ["date", "value"]`. -/
theorem anomalizeCols_order_witness :
    ("date" ∉ resultColNames) ∧
    (anomalizeCols ["id"] "date" false ["date", "value"] =
        ["id"] ++ "date" :: resultColNames ∧
      anomalizeCols ["id"] "date" true ["date", "value"] =
        ["id"] ++ ["date", "value"] ++ resultColNames) :=
  ⟨by decide, anomalizeCols_order ["id"] "date" ["date", "value"] (by decide)⟩

/-- C8, counterexample: on an ungrouped frame with columns
`["date", "value"]` and `bind_data = True`, the original input columns do
NOT come after the result columns as the claim states: the computed order
has them in front instead. -/
theorem anomalizeCols_bind_data_order_ne :
    anomalizeCols [] "date" true ["date", "value"] ≠
      "date" :: (resultColNames ++ ["date", "value"]) := by
  decide

/-- One row of the expanding augmenter's input frame: the pandas row-index
label, the grouping key (read only by grouped calls), the timestamp column,
the value column the window functions run on, and one further original
column that the augmenter must leave untouched. -/
structure ExpRow where
  idx : ℤ
  group : ℤ
  date : ℚ
  value : ℚ
  extra : ℚ
deriving DecidableEq, Repr, Inhabited

/-- An output row: the input row plus the appended expanding columns
(name and value; `none` models `NaN`). -/
abbrev ExpOut := ExpRow × List (String × Option ℚ)

/-- An entry of `window_func` (`expanding.py`): either the name of a pandas
expanding method passed as a string, or a `(name, function)` tuple with a
Series-based custom function. -/
inductive WinFunc where
  | str (s : String)
  | custom (name : String) (f : List ℚ → ℚ)

/-- The new column's name (`expanding.py`, lines 244-245, 291 and 294):
`f"{col}_expanding_{name}"`, except that the bare string `'quantile'` gets
`_50` appended. -/
def winFuncCol (col : String) : WinFunc → String
  | .str s =>
      if s = "quantile" then col ++ "_expanding_quantile_50"
      else col ++ "_expanding_" ++ s
  | .custom n _ => col ++ "_expanding_" ++ n

/-- The series-level semantics of a window function on a full window
(`expanding.py`, lines 251, 295 and 302-305): custom tuples run their own
function; of the string names this embedding carries `'sum'`, `'mean'` and
`'quantile'` (median by linear interpolation); an unrecognised string gives
`none` and raises. -/
def winFuncEval : WinFunc → Option (List ℚ → ℚ)
  | .str "sum" => some (fun l => l.sum)
  | .str "mean" => some (fun l => l.sum / (l.length : ℚ))
  | .str "quantile" => some (fun l => npPercentile l 50)
  | .str _ => none
  | .custom _ f => some f

/-- Cell-level model of `df[name] = vals` on a frame already carrying the
columns `cols`: an existing column is overwritten in place, a new one is
appended. -/
def upsert (cols : List (String × Option ℚ)) (name : String) (v : Option ℚ) :
    List (String × Option ℚ) :=
  if cols.any (·.1 = name) then
    cols.map fun c => if c.1 = name then (name, v) else c
  else cols ++ [(name, v)]

/-- One group's expanding computation (`expanding.py`, lines 234-311): every
row of the block receives, for each window function in order, the function's
value on the window from the block's start through the row (`NaN`/`none`
below `min_periods` observations). -/
def processBlock (block : List ExpRow) (col : String)
    (window_func : List WinFunc) (min_periods : ℕ) : List ExpOut :=
  (List.range block.length).map fun i =>
    (block.getD i default,
      window_func.foldl (fun acc f =>
        upsert acc (winFuncCol col f)
          (if min_periods ≤ i + 1 then
            (winFuncEval f).map fun fn => fn ((block.take (i + 1)).map (·.value))
          else none)) [])

/-- Model of `sort_values(by=[date_column])` (`expanding.py`, line 230). -/
def sortByDate (l : List ExpRow) : List ExpRow :=
  List.insertionSort (fun a b => a.date ≤ b.date) l

/-- Model of `sort_values(by=[*group_names, date_column])` (`expanding.py`,
line 227). -/
def sortByGroupDate (l : List ExpRow) : List ExpRow :=
  List.insertionSort
    (fun a b => a.group < b.group ∨ (a.group = b.group ∧ a.date ≤ b.date)) l

/-- The group keys in the order `groupby` iterates them on an already
group-sorted frame: first-occurrence order. -/
def groupKeys (l : List ExpRow) : List ℤ :=
  (l.map (·.group)).dedup

/-- Model of `.sort_index()` (`expanding.py`, line 314). -/
def sortIdx (l : List ExpOut) : List ExpOut :=
  List.insertionSort (fun a b => a.1.idx ≤ b.1.idx) l

/-- `_augment_expanding_pandas` (`expanding.py`, lines 209-316) on a frame
with one value column: sort by (group keys and) date, run the expanding
window functions group by group (the whole frame is the single group of an
ungrouped call), concatenate the groups and sort by the original index.  An
unrecognised string function raises `ValueError` (line 307). -/
def _augment_expanding_pandas (grouped : Bool) (rows : List ExpRow)
    (col : String) (window_func : List WinFunc) (min_periods : ℕ) :
    Except String (List ExpOut) :=
  if window_func.any fun f => (winFuncEval f).isNone then
    .error "Invalid function name"
  else
    let blocks :=
      if grouped then
        let s := sortByGroupDate rows
        (groupKeys s).map fun k => s.filter (·.group = k)
      else [sortByDate rows]
    .ok (sortIdx
      ((blocks.map fun b => processBlock b col window_func min_periods).flatten))

theorem range_getD_eq {α : Type} (l : List α) (d : α) :
    (List.range l.length).map (fun i => l.getD i d) = l := by
  induction l with
  | nil => simp
  | cons a l ih =>
    rw [List.length_cons, List.range_succ_eq_map, List.map_cons, List.map_map]
    have hcomp : ((fun i => (a :: l).getD i d) ∘ Nat.succ) =
        fun i => l.getD i d := by
      funext i
      simp
    rw [hcomp, ih]
    simp

theorem processBlock_fst (block : List ExpRow) (col : String)
    (window_func : List WinFunc) (min_periods : ℕ) :
    (processBlock block col window_func min_periods).map Prod.fst = block := by
  rw [processBlock, List.map_map]
  exact range_getD_eq block default

theorem foldl_upsert_names (col : String) (vals : WinFunc → Option ℚ) :
    ∀ (funcs : List WinFunc) (acc : List (String × Option ℚ)),
      (∀ c ∈ acc, c.1 ∉ funcs.map (winFuncCol col)) →
      (funcs.map (winFuncCol col)).Nodup →
      funcs.foldl (fun acc f => upsert acc (winFuncCol col f) (vals f)) acc =
        acc ++ funcs.map fun f => (winFuncCol col f, vals f) := by
  intro funcs
  induction funcs with
  | nil =>
    intro acc _ _
    simp
  | cons f fs ih =>
    intro acc hdisj hnodup
    rw [List.foldl_cons]
    have hne : ¬ (acc.any fun c => c.1 = winFuncCol col f) = true := by
      rw [List.any_eq_true]
      rintro ⟨c, hc, hcn⟩
      exact hdisj c hc (by
        rw [List.map_cons, List.mem_cons]
        exact Or.inl (by simpa using hcn))
    rw [upsert, if_neg hne]
    rw [List.map_cons, List.nodup_cons] at hnodup
    have hdisj2 : ∀ c ∈ acc ++ [(winFuncCol col f, vals f)],
        c.1 ∉ fs.map (winFuncCol col) := by
      intro c hc
      rcases List.mem_append.mp hc with hc | hc
      · intro hmem
        exact hdisj c hc (by rw [List.map_cons]; exact List.mem_cons_of_mem _ hmem)
      · rw [List.mem_singleton] at hc
        subst hc
        exact hnodup.1
    rw [ih (acc ++ [(winFuncCol col f, vals f)]) hdisj2 hnodup.2,
      List.append_assoc, List.singleton_append, List.map_cons]

theorem mem_processBlock_names (block : List ExpRow) (col : String)
    (window_func : List WinFunc) (min_periods : ℕ)
    (hnodup : (window_func.map (winFuncCol col)).Nodup) {o : ExpOut}
    (ho : o ∈ processBlock block col window_func min_periods) :
    o.2.map Prod.fst = window_func.map (winFuncCol col) := by
  rw [processBlock] at ho
  rw [List.mem_map] at ho
  obtain ⟨i, _, rfl⟩ := ho
  rw [foldl_upsert_names col _ window_func [] (by simp) hnodup]
  simp

theorem count_filter_eq {α : Type} [DecidableEq α] (p : α → Bool) (r : α) :
    ∀ l : List α, (l.filter p).count r = if p r then l.count r else 0 := by
  intro l
  induction l with
  | nil => simp
  | cons a l ih =>
    by_cases har : a = r
    · subst har
      by_cases hpa : p a <;> simp [List.filter_cons, hpa, List.count_cons, ih]
    · by_cases hpa : p a <;>
        simp [List.filter_cons, hpa, List.count_cons, har, ih]

theorem sum_ite_eq_mem (c : ℕ) (g : ℤ) :
    ∀ ks : List ℤ, ks.Nodup →
      (ks.map fun k => if g = k then c else 0).sum = if g ∈ ks then c else 0 := by
  intro ks
  induction ks with
  | nil => simp
  | cons k ks ih =>
    intro hnodup
    rw [List.nodup_cons] at hnodup
    rw [List.map_cons, List.sum_cons, ih hnodup.2]
    by_cases hgk : g = k
    · subst hgk
      simp [hnodup.1]
    · simp [hgk]

theorem blocks_flatten_perm (s : List ExpRow) :
    (((groupKeys s).map fun k => s.filter (·.group = k)).flatten).Perm s := by
  refine List.perm_iff_count.mpr fun r => ?_
  rw [List.count_flatten, List.map_map]
  have hcomp : (List.count r ∘ fun k => s.filter (·.group = k)) =
      fun k => if r.group = k then s.count r else 0 := by
    funext k
    rw [Function.comp_apply, count_filter_eq]
    by_cases h : r.group = k <;> simp [h]
  rw [hcomp, sum_ite_eq_mem (s.count r) r.group (groupKeys s)
    (List.nodup_dedup _)]
  by_cases hmem : r.group ∈ groupKeys s
  · rw [if_pos hmem]
  · rw [if_neg hmem]
    have hns : r ∉ s := fun hr =>
      hmem (by rw [groupKeys, List.mem_dedup]; exact List.mem_map_of_mem _ hr)
    rw [List.count_eq_zero_of_not_mem hns]

instance : IsTotal ExpOut (fun a b : ExpOut => a.1.idx ≤ b.1.idx) :=
  ⟨fun a b => Int.le_total a.1.idx b.1.idx⟩

instance : IsTrans ExpOut (fun a b : ExpOut => a.1.idx ≤ b.1.idx) :=
  ⟨fun _ _ _ h1 h2 => le_trans h1 h2⟩

instance : IsAntisymm ExpRow (fun a b : ExpRow => a.idx < b.idx) :=
  ⟨fun _ b h1 h2 => absurd (lt_trans h1 h2) (lt_irrefl _)⟩

/-- C10 (amended): a successful `pandas`-engine run of `augment_expanding`
(grouped or not) returns the input rows with every original column value
untouched and, when the original index labels are strictly increasing (as
with the default `RangeIndex`), in their original order — the final
`sort_index()` orders rows by index label, which restores the input order
exactly in that case — and the only change is the expanding columns, named
`<value_column>_expanding_<function_name>` (with `_50` appended for the
string function `'quantile'`). -/
theorem augment_expanding_pandas_frame_effect (grouped : Bool)
    (rows : List ExpRow) (col : String) (window_func : List WinFunc)
    (min_periods : ℕ) (out : List ExpOut)
    (h : _augment_expanding_pandas grouped rows col window_func min_periods =
      .ok out)
    (hmono : List.Pairwise (fun a b : ExpRow => a.idx < b.idx) rows)
    (hnodup : (window_func.map (winFuncCol col)).Nodup) :
    out.map Prod.fst = rows ∧
    ∀ o ∈ out, o.2.map Prod.fst = window_func.map (winFuncCol col) := by
  rw [_augment_expanding_pandas] at h
  split at h
  · exact absurd h (by simp)
  · rw [Except.ok.injEq] at h
    have hblocks :
        ((if grouped then
            let s := sortByGroupDate rows
            (groupKeys s).map fun k => s.filter (·.group = k)
          else [sortByDate rows]).flatten).Perm rows := by
      split
      · exact (blocks_flatten_perm (sortByGroupDate rows)).trans
          (List.perm_insertionSort _ rows)
      · rw [List.flatten, List.flatten]
        simp only [List.append_nil]
        exact List.perm_insertionSort _ rows
    set blocks := (if grouped then
        let s := sortByGroupDate rows
        (groupKeys s).map fun k => s.filter (·.group = k)
      else [sortByDate rows]) with hblocksdef
    have hfst : ((blocks.map fun b =>
        processBlock b col window_func min_periods).flatten).map Prod.fst =
          blocks.flatten := by
      have hfun : (List.map Prod.fst ∘ fun b =>
          processBlock b col window_func min_periods) =
            fun b : List ExpRow => b :=
        funext fun b => processBlock_fst b col window_func min_periods
      rw [List.map_flatten, List.map_map, hfun]
      simp
    have hperm : (out.map Prod.fst).Perm rows := by
      rw [← h]
      refine (List.Perm.map Prod.fst (List.perm_insertionSort _ _)).trans ?_
      rw [hfst]
      exact hblocks
    constructor
    · have hsortedout : List.Pairwise (fun a b : ExpOut => a.1.idx ≤ b.1.idx)
          (sortIdx ((blocks.map fun b =>
            processBlock b col window_func min_periods).flatten)) :=
        List.sorted_insertionSort _ _
      rw [← h] at hperm ⊢
      have hle : List.Pairwise (fun a b : ExpRow => a.idx ≤ b.idx)
          ((sortIdx ((blocks.map fun b =>
            processBlock b col window_func min_periods).flatten)).map Prod.fst) :=
        List.pairwise_map.mpr hsortedout
      have hne : List.Pairwise (fun a b : ExpRow => a.idx ≠ b.idx)
          ((sortIdx ((blocks.map fun b =>
            processBlock b col window_func min_periods).flatten)).map Prod.fst) := by
        refine (hperm.pairwise_iff ?_).mpr (hmono.imp fun hab => ne_of_lt hab)
        intro a b hab
        exact hab.symm
      have hlt : List.Pairwise (fun a b : ExpRow => a.idx < b.idx)
          ((sortIdx ((blocks.map fun b =>
            processBlock b col window_func min_periods).flatten)).map Prod.fst) :=
        (hle.and hne).imp fun hab => lt_of_le_of_ne hab.1 hab.2
      exact List.eq_of_perm_of_sorted hperm hlt hmono
    · intro o ho
      rw [← h] at ho
      have ho2 : o ∈ (blocks.map fun b =>
          processBlock b col window_func min_periods).flatten :=
        (List.perm_insertionSort _ _).mem_iff.mp ho
      rw [List.mem_flatten] at ho2
      obtain ⟨l, hl, hol⟩ := ho2
      rw [List.mem_map] at hl
      obtain ⟨b, _, rfl⟩ := hl
      exact mem_processBlock_names b col window_func min_periods hnodup hol

/-- Witness for `augment_expanding_pandas_frame_effect`: a grouped run over
interleaved groups with the default increasing index. -/
theorem augment_expanding_pandas_frame_effect_witness :
    ((_augment_expanding_pandas true
        [⟨0, 1, 0, 10, 100⟩, ⟨1, 0, 0, 20, 200⟩, ⟨2, 1, 1, 30, 300⟩]
        "value" [WinFunc.str "mean"] 1).toOption.getD []).map Prod.fst =
      [⟨0, 1, 0, 10, 100⟩, ⟨1, 0, 0, 20, 200⟩, ⟨2, 1, 1, 30, 300⟩] ∧
    ∀ o ∈ (_augment_expanding_pandas true
        [⟨0, 1, 0, 10, 100⟩, ⟨1, 0, 0, 20, 200⟩, ⟨2, 1, 1, 30, 300⟩]
        "value" [WinFunc.str "mean"] 1).toOption.getD [],
      o.2.map Prod.fst = [WinFunc.str "mean"].map (winFuncCol "value") :=
  augment_expanding_pandas_frame_effect true
    [⟨0, 1, 0, 10, 100⟩, ⟨1, 0, 0, 20, 200⟩, ⟨2, 1, 1, 30, 300⟩]
    "value" [WinFunc.str "mean"] 1 _ (by with_unfolding_all rfl)
    (by decide) (by decide)

/-- C10, counterexample: with a non-monotonic original index (labels `1`
then `0`) the `pandas` engine does NOT leave the row order unchanged — the
final `sort_index()` returns the rows in index order `0, 1`, not in the
original order `1, 0`. -/
theorem augment_expanding_pandas_reorders :
    ((_augment_expanding_pandas false
        [⟨1, 0, 0, 5, 7⟩, ⟨0, 0, 1, 6, 8⟩]
        "value" [WinFunc.str "mean"] 1).toOption.getD []).map Prod.fst ≠
      [⟨1, 0, 0, 5, 7⟩, ⟨0, 0, 1, 6, 8⟩] := by
  with_unfolding_all decide

end PyTimeTk
